import Mathlib

/-!
Verification of the record-normalization, license-key-generation and
authentication logic of the `painel-licencas` panel (`src/main.py`), against
its natural-language specification.

JSON values (as produced by `json` decoding in Python) are modelled by the
inductive type `Json`; Python `dict`s appear as insertion-ordered association
lists (`Obj`) whose operations mirror Python dictionary semantics:
`lookup` is `dict.get`, `setKey` is `d[k] = v` (in-place value update keeps
the original key position, a fresh key is appended at the end), and
`updateDict` is `d.update(other)`.
-/

/-- A JSON-decoded Python value: `None`, booleans, numbers, strings, lists
and dicts (dicts as insertion-ordered association lists). -/
inductive Json where
  | null : Json
  | bool (b : Bool) : Json
  | num (n : Int) : Json
  | str (s : String) : Json
  | arr (elems : List Json) : Json
  | obj (fields : List (String × Json)) : Json
deriving Repr

/-- The fields of a JSON object / the items of a Python dict, in insertion
order. -/
abbrev Obj := List (String × Json)

/-- Python `k in d` for a dict `d`. -/
def hasKey (d : Obj) (k : String) : Bool :=
  d.any (fun p => p.1 == k)

/-- Python `d.get(k)`, as an `Option` (`none` plays the role of the absent
key / `None` default). -/
def lookup (d : Obj) (k : String) : Option Json :=
  (d.find? (fun p => p.1 == k)).map (·.2)

/-- Python `d.get(k, default)`. -/
def getD (d : Obj) (k : String) (dflt : Json) : Json :=
  (lookup d k).getD dflt

/-- Python `d[k] = v`: if `k` is present its value is replaced in place
(keeping the key's position), otherwise the pair is appended at the end. -/
def setKey (d : Obj) (k : String) (v : Json) : Obj :=
  if d.any (fun p => p.1 == k) then
    d.map (fun p => if p.1 == k then (k, v) else p)
  else
    d ++ [(k, v)]

/-- Python `d₁.update(d₂)`: assign every item of `d₂` into `d₁`, in order. -/
def updateDict (d₁ d₂ : Obj) : Obj :=
  d₂.foldl (fun acc p => setKey acc p.1 p.2) d₁

/-- `main.py` line 63: `any(k in value for k in ("key", "status", "expiresAt",
"periodDays"))` — the entity-record shape test of `normalize_licenses`. -/
def isEntity (d : Obj) : Bool :=
  hasKey d "key" || hasKey d "status" || hasKey d "expiresAt" || hasKey d "periodDays"

/-- `main.py` line 66: `"record" in value or "metadata" in value or
"licenses" in value` — the wrapper shape test of `normalize_licenses`. -/
def isWrapper (d : Obj) : Bool :=
  hasKey d "record" || hasKey d "metadata" || hasKey d "licenses"

/-- `main.py` lines 74–82: the canonical record built by the cleaning pass of
`normalize_licenses` for the entry `license_key ↦ info`
(`info.get("hardwareId")` defaults to `None`, i.e. `Json.null`). -/
def clean (license_key : String) (info : Obj) : Obj :=
  [("key", getD info "key" (.str license_key)),
   ("status", getD info "status" (.str "active")),
   ("hardwareId", getD info "hardwareId" .null),
   ("expiresAt", getD info "expiresAt" (.str "")),
   ("periodDays", getD info "periodDays" (.num 30)),
   ("allowedProviders", getD info "allowedProviders" (.arr [])),
   ("createdAt", getD info "createdAt" (.str ""))]

/-- One entry of the final pass of `normalize_licenses`: a dict value is
coerced to the canonical record shape, anything else is dropped. -/
def cleanEntry (p : String × Json) : Option (String × Json) :=
  match p.2 with
  | .obj info => some (p.1, .obj (clean p.1 info))
  | _ => none

/-- The `for license_key, info in result.items()` loop of the final pass of
`normalize_licenses` (`main.py` lines 72–82), accumulating into `acc`. -/
def cleanFold (acc : Obj) : Obj → Obj
  | [] => acc
  | p :: rest =>
      cleanFold
        (match cleanEntry p with
         | some q => setKey acc q.1 q.2
         | none => acc)
        rest

/-- `main.py` lines 71–84: the final pass of `normalize_licenses` — build
`cleaned` from `result`, keeping only entries whose value is a dict and
coercing each to the canonical record shape. -/
def cleanPass (res : Obj) : Obj :=
  cleanFold [] res

mutual

/-- Size of a `Json` value, used as the termination measure of
`normalize_licenses`. -/
def jsize : Json → Nat
  | .null => 1
  | .bool _ => 1
  | .num _ => 1
  | .str _ => 1
  | .arr xs => 1 + asize xs
  | .obj fs => 1 + osize fs

/-- Size of a list of JSON values. -/
def asize : List Json → Nat
  | [] => 0
  | x :: xs => jsize x + asize xs + 1

/-- Size of a JSON object's field list. -/
def osize : Obj → Nat
  | [] => 0
  | p :: ps => jsize p.2 + osize ps + 1

end

theorem jsize_pos (j : Json) : 0 < jsize j := by
  cases j <;> simp [jsize]

theorem jsize_lt_of_mem {fs : Obj} {k : String} {v : Json}
    (h : (k, v) ∈ fs) : jsize v < 1 + osize fs := by
  induction fs with
  | nil => cases h
  | cons p ps ih =>
    rcases List.mem_cons.mp h with h | h
    · cases h; simp [osize]; omega
    · have := ih h; simp [osize]; omega

theorem jsize_lt_of_lookup {fs : Obj} {k : String} {v : Json}
    (h : lookup fs k = some v) : jsize v < 1 + osize fs := by
  unfold lookup at h
  rcases Option.map_eq_some'.mp h with ⟨p, hp, hv⟩
  have hmem := List.mem_of_find?_eq_some hp
  have hk : p.1 = k := by
    have := List.find?_some hp
    simpa using this
  subst hv
  exact jsize_lt_of_mem (k := p.1) (by simpa using hmem)

mutual

/-- `main.py` lines 46–84, `normalize_licenses(obj)`: non-dict input yields
the empty mapping; a dict is normalized by seeding the result with the
recursively normalized `"record"` and `"licenses"` sub-dicts, then walking
the remaining items (`loopFields`), then running the cleaning pass. -/
def normalize_licenses : Json → Obj
  | .obj fs =>
      let res₁ : Obj :=
        match h : lookup fs "record" with
        | some (.obj rfs) => updateDict [] (normalize_licenses (.obj rfs))
        | _ => []
      let res₂ : Obj :=
        match h : lookup fs "licenses" with
        | some (.obj lfs) => updateDict res₁ (normalize_licenses (.obj lfs))
        | _ => res₁
      cleanPass (loopFields fs res₂)
  | _ => []
termination_by j => 3 * jsize j
decreasing_by
  all_goals first
    | (have hb := jsize_lt_of_lookup h; simp [jsize] at hb ⊢; omega)
    | (simp [jsize]; try omega)

/-- `main.py` lines 60–69, the `for key, value in obj.items()` loop of
`normalize_licenses`: process each item in turn with `stepField`. -/
def loopFields : Obj → Obj → Obj
  | [], acc => acc
  | p :: rest, acc => loopFields rest (stepField p.1 p.2 acc)
termination_by fs _ => 3 * osize fs + 2
decreasing_by
  all_goals (simp [osize]; have := jsize_pos p.2; omega)

/-- One iteration of the `for key, value in obj.items()` loop of
`normalize_licenses` on the item `key ↦ value`: skip the structural keys,
capture an entity-shaped dict value verbatim, recurse into a wrapper-shaped
dict value and merge a non-empty nested result, drop everything else. -/
def stepField (k : String) (v : Json) (acc : Obj) : Obj :=
  if k == "record" || k == "metadata" || k == "licenses" then acc
  else
    match v with
    | .obj vfs =>
        if isEntity vfs then setKey acc k (.obj vfs)
        else if isWrapper vfs then
          let nested := normalize_licenses (.obj vfs)
          if nested.isEmpty then acc else updateDict acc nested
        else acc
    | _ => acc
termination_by 3 * jsize v + 1
decreasing_by
  all_goals (simp [jsize]; try omega)

end

/-- The seeding step of `normalize_licenses` for one wrapper key
(`main.py` lines 52–58): if the value under the key is a dict, merge its
recursive normalization into the running result, otherwise leave the
result unchanged. `prev` is the running result and `x` the looked-up
value. -/
def seedOf (prev : Obj) (x : Option Json) : Obj :=
  match x with
  | some (.obj gfs) => updateDict prev (normalize_licenses (.obj gfs))
  | _ => prev

/-- Fuel-bounded variant of `stepField`, with the fuel-bounded normalizer
passed in as `f`. -/
def stepFieldFuel (f : Json -> Option Obj) (k : String) (v : Json) (acc : Obj) :
    Option Obj :=
  if k == "record" || k == "metadata" || k == "licenses" then some acc
  else
    match v with
    | .obj vfs =>
        if isEntity vfs then some (setKey acc k (.obj vfs))
        else if isWrapper vfs then
          (f (.obj vfs)).map
            (fun nested => if nested.isEmpty then acc else updateDict acc nested)
        else some acc
    | _ => some acc

/-- Fuel-bounded variant of `loopFields`. -/
def loopFieldsFuel (f : Json -> Option Obj) : Obj -> Obj -> Option Obj
  | [], acc => some acc
  | p :: rest, acc =>
      match stepFieldFuel f p.1 p.2 acc with
      | none => none
      | some acc' => loopFieldsFuel f rest acc'

/-- Fuel-bounded variant of `normalize_licenses`: `none` models running out
of recursion depth. It is used to state that the recursion depth of
`normalize_licenses` is bounded by the size of its input, so the Python
function terminates without error on every finite JSON document. -/
def normalizeFuel : Nat -> Json -> Option Obj
  | 0, _ => none
  | n + 1, .obj fs =>
      (match lookup fs "record" with
       | some (.obj rfs) => (normalizeFuel n (.obj rfs)).map (updateDict [])
       | _ => some []).bind (fun res1 =>
      (match lookup fs "licenses" with
       | some (.obj lfs) => (normalizeFuel n (.obj lfs)).map (updateDict res1)
       | _ => some res1).bind (fun res2 =>
      (loopFieldsFuel (normalizeFuel n) fs res2).map cleanPass))
  | _ + 1, _ => some []

/-- A Python `datetime.datetime` value (date and time components; the
microsecond and timezone components play no role in `main.py`). -/
structure PyDateTime where
  year : Nat
  month : Nat
  day : Nat
  hour : Nat
  minute : Nat
  second : Nat
deriving Repr, DecidableEq

/-- Gregorian leap-year rule, as used by Python's `datetime` validation. -/
def isLeapYear (y : Nat) : Bool :=
  y % 4 == 0 && (y % 100 != 0 || y % 400 == 0)

/-- Number of days in a month, as used by Python's `datetime` validation. -/
def daysInMonth (y m : Nat) : Nat :=
  if m == 2 then (if isLeapYear y then 29 else 28)
  else if m == 4 || m == 6 || m == 9 || m == 11 then 30
  else 31

/-- The range checks `datetime.datetime` performs on its components
(`MINYEAR = 1`, `MAXYEAR = 9999`). -/
def validDateTime (dt : PyDateTime) : Bool :=
  1 ≤ dt.year && dt.year ≤ 9999 && 1 ≤ dt.month && dt.month ≤ 12 &&
  1 ≤ dt.day && dt.day ≤ daysInMonth dt.year dt.month &&
  dt.hour ≤ 23 && dt.minute ≤ 59 && dt.second ≤ 59

/-- Decimal value of an ASCII digit character, `none` for a non-digit. -/
def digit? (c : Char) : Option Nat :=
  if c.isDigit then some (c.toNat - 48) else none

/-- Two-digit decimal field of an ISO-8601 string. -/
def num2 (a b : Char) : Option Nat := do
  let x ← digit? a
  let y ← digit? b
  pure (10 * x + y)

/-- Four-digit decimal field of an ISO-8601 string. -/
def num4 (a b c d : Char) : Option Nat := do
  let x ← digit? a
  let y ← digit? b
  let z ← digit? c
  let w ← digit? d
  pure (1000 * x + 100 * y + 10 * z + w)

/-- Positional parse of the ISO-8601 shapes `YYYY-MM-DD`,
`YYYY-MM-DD<sep>HH:MM` and `YYYY-MM-DD<sep>HH:MM:SS` (any single separator
character, as `datetime.fromisoformat` accepts). -/
def rawParse (s : String) : Option PyDateTime :=
  match s.toList with
  | [y1, y2, y3, y4, '-', m1, m2, '-', d1, d2] => do
      let y ← num4 y1 y2 y3 y4
      let m ← num2 m1 m2
      let d ← num2 d1 d2
      pure ⟨y, m, d, 0, 0, 0⟩
  | [y1, y2, y3, y4, '-', m1, m2, '-', d1, d2, _, h1, h2, ':', mi1, mi2] => do
      let y ← num4 y1 y2 y3 y4
      let m ← num2 m1 m2
      let d ← num2 d1 d2
      let h ← num2 h1 h2
      let mi ← num2 mi1 mi2
      pure ⟨y, m, d, h, mi, 0⟩
  | [y1, y2, y3, y4, '-', m1, m2, '-', d1, d2, _, h1, h2, ':', mi1, mi2, ':', s1, s2] => do
      let y ← num4 y1 y2 y3 y4
      let m ← num2 m1 m2
      let d ← num2 d1 d2
      let h ← num2 h1 h2
      let mi ← num2 mi1 mi2
      let sec ← num2 s1 s2
      pure ⟨y, m, d, h, mi, sec⟩
  | _ => none

/-- Model of `datetime.fromisoformat` for the date/time shapes above:
positional parse followed by the component range validation (a failing
parse models the `ValueError` that `generate_license_key` catches). -/
def fromisoformat (s : String) : Option PyDateTime :=
  (rawParse s).bind (fun dt => if validDateTime dt then some dt else none)

/-- Model of `dt.strftime("%Y%m%d%H%M")` (`main.py` line 151): the year
zero-padded to four digits followed by month, day, hour and minute each
zero-padded to two digits, as documented for `strftime`. -/
def strftime_YmdHM (dt : PyDateTime) : String :=
  String.mk
    [Nat.digitChar (dt.year / 1000 % 10), Nat.digitChar (dt.year / 100 % 10),
     Nat.digitChar (dt.year / 10 % 10), Nat.digitChar (dt.year % 10),
     Nat.digitChar (dt.month / 10 % 10), Nat.digitChar (dt.month % 10),
     Nat.digitChar (dt.day / 10 % 10), Nat.digitChar (dt.day % 10),
     Nat.digitChar (dt.hour / 10 % 10), Nat.digitChar (dt.hour % 10),
     Nat.digitChar (dt.minute / 10 % 10), Nat.digitChar (dt.minute % 10)]

/-- Model of `secrets.token_hex(len(entropy)).upper()`: each random byte
becomes two lowercase hexadecimal digits, then the string is uppercased. -/
def token_hex_upper (entropy : List Nat) : String :=
  String.mk
    (((entropy.map (fun b => [Nat.digitChar (b / 16), Nat.digitChar (b % 16)])).flatten).map
      Char.toUpper)

/-- `main.py` lines 146–152, `generate_license_key(expires_at)`. The two
effectful inputs are made explicit: `now` is the `datetime.utcnow()` value
substituted when parsing fails, and `entropy` is the list of random bytes
drawn by `secrets.token_hex(6)`. -/
def generate_license_key (expires_at : String) (now : PyDateTime)
    (entropy : List Nat) : String :=
  let dt := (fromisoformat expires_at).getD now
  "MK-30D-" ++ strftime_YmdHM dt ++ "-" ++ token_hex_upper entropy

/-- A character allowed in the random suffix of a license key: `[0-9A-F]`. -/
def isUpperHex (c : Char) : Bool :=
  "0123456789ABCDEF".toList.contains c

/-- Outcome of a `POST /login` request: HTTP status, the active-session
token set after the request, and whether the remote store was written. -/
structure LoginOutcome where
  status : Nat
  sessions : List String
  wroteStore : Bool
deriving Repr, DecidableEq

/-- `main.py` lines 591–599, `do_login`: a matching panel password registers
the fresh session token and redirects; anything else is rejected with 401
(`"Senha incorreta"`) and no state change. `do_login` never writes the
remote store. -/
def do_login (password painel_password : String) (sessions : List String)
    (fresh_token : String) : LoginOutcome :=
  if password == painel_password then
    { status := 302, sessions := sessions ++ [fresh_token], wroteStore := false }
  else
    { status := 401, sessions := sessions, wroteStore := false }

/-- Outcome of a `GET /repair` request: HTTP status and whether the remote
store was written back. -/
structure RepairOutcome where
  status : Nat
  wroteStore : Bool
deriving Repr, DecidableEq

/-- `main.py` lines 611–626, `repair`: `repair_token` is the `REPAIR_TOKEN`
environment value, with `""` standing for unset/empty (both falsy in
Python). `provided = token or x_repair_token`; a missing or mismatched
token yields 403 without touching the store, otherwise the document is
fetched, normalized and saved back (status 200). -/
def repair (token x_repair_token repair_token : String) : RepairOutcome :=
  if repair_token == "" then { status := 403, wroteStore := false }
  else
    let provided := if token == "" then x_repair_token else token
    if provided != repair_token then { status := 403, wroteStore := false }
    else { status := 200, wroteStore := true }

/-- The keys of a dict are pairwise distinct (every genuine Python dict, and
every mapping `normalize_licenses` builds, satisfies this). -/
def keysNodup (d : Obj) : Prop :=
  (d.map Prod.fst).Nodup

/-- No entry of `d` uses one of the structural keys `record`, `metadata`,
`licenses` as its identifier. -/
def goodKeys (d : Obj) : Prop :=
  ∀ p ∈ d, p.1 ≠ "record" ∧ p.1 ≠ "metadata" ∧ p.1 ≠ "licenses"

/-- Every value of `d` is a JSON object. -/
def objValues (d : Obj) : Prop :=
  ∀ p ∈ d, ∃ o, p.2 = Json.obj o

/-- Every value of `d` is a canonical cleaned record for its own key. -/
def cleanShape (d : Obj) : Prop :=
  ∀ p ∈ d, ∃ info, p.2 = Json.obj (clean p.1 info)

theorem mem_setKey {d : Obj} {k : String} {v : Json} {p : String × Json}
    (h : p ∈ setKey d k v) : p ∈ d ∨ p = (k, v) := by
  unfold setKey at h
  split at h
  · rcases List.mem_map.mp h with ⟨q, hq, hpq⟩
    by_cases hqk : (q.1 == k) = true
    · right; simpa [hqk] using hpq.symm
    · left; simp [hqk] at hpq; rwa [← hpq]
  · rcases List.mem_append.mp h with h | h
    · exact Or.inl h
    · right; simpa using h

theorem hasKey_iff {d : Obj} {k : String} :
    hasKey d k = true ↔ ∃ v, (k, v) ∈ d := by
  unfold hasKey
  rw [List.any_eq_true]
  constructor
  · rintro ⟨p, hp, he⟩
    have hk : p.1 = k := by simpa using he
    exact ⟨p.2, by rw [← hk]; exact hp⟩
  · rintro ⟨v, hv⟩
    exact ⟨(k, v), hv, by simp⟩

theorem hasKey_eq_false_iff {d : Obj} {k : String} :
    hasKey d k = false ↔ ∀ p ∈ d, p.1 ≠ k := by
  rw [← Bool.not_eq_true, hasKey_iff]
  constructor
  · intro h p hp hk
    exact h ⟨p.2, by rw [← hk]; exact hp⟩
  · rintro h ⟨v, hv⟩
    exact h (k, v) hv rfl

theorem lookup_eq_none_of_hasKey_false {d : Obj} {k : String}
    (h : hasKey d k = false) : lookup d k = none := by
  unfold lookup
  rw [Option.map_eq_none', List.find?_eq_none]
  intro p hp
  have := hasKey_eq_false_iff.mp h p hp
  simpa using this

theorem hasKey_setKey_self {d : Obj} {k : String} {v : Json} :
    hasKey (setKey d k v) k = true := by
  unfold setKey
  split
  · next hany =>
      rcases List.any_eq_true.mp hany with ⟨q, hq, he⟩
      exact hasKey_iff.mpr ⟨v, List.mem_map.mpr ⟨q, hq, by simp [he]⟩⟩
  · exact hasKey_iff.mpr ⟨v, List.mem_append.mpr (Or.inr (by simp))⟩

theorem hasKey_setKey_mono {d : Obj} {k k' : String} {v : Json}
    (h : hasKey d k' = true) : hasKey (setKey d k v) k' = true := by
  rcases hasKey_iff.mp h with ⟨w, hw⟩
  unfold setKey
  split
  · apply hasKey_iff.mpr
    by_cases hkk : (k' == k) = true
    · exact ⟨v, List.mem_map.mpr ⟨(k', w), hw, by simp at hkk; simp [hkk]⟩⟩
    · exact ⟨w, List.mem_map.mpr ⟨(k', w), hw, by simp at hkk ⊢; intro he; exact absurd he hkk⟩⟩
  · exact hasKey_iff.mpr ⟨w, List.mem_append.mpr (Or.inl hw)⟩

theorem setKey_of_hasKey_false {d : Obj} {k : String} {v : Json}
    (h : hasKey d k = false) : setKey d k v = d ++ [(k, v)] := by
  unfold setKey
  rw [if_neg]
  rw [show d.any (fun p => p.1 == k) = hasKey d k from rfl, h]
  simp

theorem hasKey_append {d₁ d₂ : Obj} {k : String} :
    hasKey (d₁ ++ d₂) k = (hasKey d₁ k || hasKey d₂ k) := by
  unfold hasKey
  exact List.any_append

theorem updateDict_nil_right (d : Obj) : updateDict d [] = d := rfl

theorem updateDict_cons (d : Obj) (p : String × Json) (rest : Obj) :
    updateDict d (p :: rest) = updateDict (setKey d p.1 p.2) rest := rfl

theorem mem_updateDict {d₁ d₂ : Obj} {p : String × Json}
    (h : p ∈ updateDict d₁ d₂) : p ∈ d₁ ∨ p ∈ d₂ := by
  induction d₂ generalizing d₁ with
  | nil => exact Or.inl h
  | cons q rest ih =>
    rw [updateDict_cons] at h
    rcases ih h with h | h
    · rcases mem_setKey h with h | h
      · exact Or.inl h
      · exact Or.inr (by simp [h])
    · exact Or.inr (List.mem_cons_of_mem _ h)

theorem hasKey_updateDict_left {d₁ d₂ : Obj} {k : String}
    (h : hasKey d₁ k = true) : hasKey (updateDict d₁ d₂) k = true := by
  induction d₂ generalizing d₁ with
  | nil => exact h
  | cons q rest ih =>
    rw [updateDict_cons]
    exact ih (hasKey_setKey_mono h)

theorem hasKey_eq_keys_mem {d : Obj} {k : String} :
    hasKey d k = true ↔ k ∈ d.map Prod.fst := by
  rw [hasKey_iff]
  constructor
  · rintro ⟨v, hv⟩; exact List.mem_map.mpr ⟨(k, v), hv, rfl⟩
  · intro h
    rcases List.mem_map.mp h with ⟨p, hp, he⟩
    exact ⟨p.2, by rw [← he]; exact hp⟩

theorem keys_setKey_of_hasKey {d : Obj} {k : String} {v : Json}
    (h : hasKey d k = true) :
    (setKey d k v).map Prod.fst = d.map Prod.fst := by
  unfold setKey
  rw [if_pos (by exact h)]
  rw [List.map_map]
  apply List.map_congr_left
  intro p _
  by_cases hp : p.1 = k
  · simp [hp]
  · simp [hp]

theorem keysNodup_setKey {d : Obj} {k : String} {v : Json}
    (h : keysNodup d) : keysNodup (setKey d k v) := by
  unfold keysNodup
  by_cases hk : hasKey d k = true
  · rw [keys_setKey_of_hasKey hk]; exact h
  · have hk' : hasKey d k = false := by simpa using hk
    rw [setKey_of_hasKey_false hk']
    rw [List.map_append]
    simp only [List.map_cons, List.map_nil]
    rw [List.nodup_append]
    refine ⟨h, List.nodup_singleton k, ?_⟩
    intro a ha hb
    simp at hb
    subst hb
    exact hk (hasKey_eq_keys_mem.mpr ha)

theorem keysNodup_updateDict {d₁ d₂ : Obj}
    (h : keysNodup d₁) : keysNodup (updateDict d₁ d₂) := by
  induction d₂ generalizing d₁ with
  | nil => exact h
  | cons q rest ih =>
    rw [updateDict_cons]
    exact ih (keysNodup_setKey h)

theorem setKey_lookup_self {k : String} {v : Json} :
    ∀ {d : Obj}, lookup (setKey d k v) k = some v := by
  intro d
  induction d with
  | nil => simp [setKey, lookup]
  | cons q rest ih =>
    by_cases hq : (q.1 == k) = true
    · have hany : (q :: rest).any (fun p => p.1 == k) = true := by
        simp only [List.any_cons, hq, Bool.true_or]
      unfold setKey
      rw [if_pos hany]
      unfold lookup
      simp only [List.map_cons]
      rw [List.find?_cons_of_pos _ (by simp [hq])]
      simp [hq]
    · unfold setKey at ih ⊢
      by_cases han : rest.any (fun p => p.1 == k) = true
      · rw [if_pos (by simp only [List.any_cons, hq, han, Bool.false_or])]
        rw [if_pos han] at ih
        unfold lookup at ih ⊢
        simp only [List.map_cons]
        rw [List.find?_cons_of_neg _ (by simp [hq])]
        exact ih
      · have han' : rest.any (fun p => p.1 == k) = false := Bool.eq_false_iff.mpr han
        rw [if_neg (by simp only [List.any_cons, hq, han', Bool.false_or]; exact Bool.false_ne_true)]
        rw [if_neg han] at ih
        unfold lookup at ih ⊢
        rw [List.cons_append, List.find?_cons_of_neg _ (by simp [hq])]
        exact ih

theorem cleanFold_nil (acc : Obj) : cleanFold acc [] = acc := rfl

theorem cleanFold_cons (acc : Obj) (p : String × Json) (rest : Obj) :
    cleanFold acc (p :: rest) =
      cleanFold (match cleanEntry p with
                 | some q => setKey acc q.1 q.2
                 | none => acc) rest := rfl

theorem cleanEntry_some {q p : String × Json}
    (h : cleanEntry q = some p) :
    p.1 = q.1 ∧ ∃ info, q.2 = Json.obj info ∧ p.2 = Json.obj (clean q.1 info) := by
  unfold cleanEntry at h
  split at h
  · next info heq =>
      cases h
      exact ⟨rfl, info, heq, rfl⟩
  · cases h

theorem mem_cleanFold {acc res : Obj} {p : String × Json}
    (h : p ∈ cleanFold acc res) :
    p ∈ acc ∨ ∃ q ∈ res, cleanEntry q = some p := by
  induction res generalizing acc with
  | nil => exact Or.inl h
  | cons q rest ih =>
    rw [cleanFold_cons] at h
    rcases ih h with h' | h'
    · rcases hq : cleanEntry q with _ | r
      · rw [hq] at h'; exact Or.inl h'
      · rw [hq] at h'
        rcases mem_setKey h' with h'' | h''
        · exact Or.inl h''
        · refine Or.inr ⟨q, List.mem_cons_self q rest, ?_⟩
          rw [hq, h'']
    · rcases h' with ⟨w, hw, hcw⟩
      exact Or.inr ⟨w, List.mem_cons_of_mem _ hw, hcw⟩

theorem keysNodup_cleanFold {acc res : Obj}
    (h : keysNodup acc) : keysNodup (cleanFold acc res) := by
  induction res generalizing acc with
  | nil => exact h
  | cons q rest ih =>
    rw [cleanFold_cons]
    rcases hq : cleanEntry q with _ | r
    · exact ih h
    · exact ih (keysNodup_setKey h)

theorem hasKey_cleanFold_mono {acc res : Obj} {k : String}
    (h : hasKey acc k = true) : hasKey (cleanFold acc res) k = true := by
  induction res generalizing acc with
  | nil => exact h
  | cons q rest ih =>
    rw [cleanFold_cons]
    rcases hq : cleanEntry q with _ | r
    · exact ih h
    · exact ih (hasKey_setKey_mono h)

theorem hasKey_cleanFold_of_mem {acc res : Obj} {k : String} {o : Obj}
    (h : (k, Json.obj o) ∈ res) : hasKey (cleanFold acc res) k = true := by
  induction res generalizing acc with
  | nil => cases h
  | cons q rest ih =>
    rw [cleanFold_cons]
    rcases List.mem_cons.mp h with h' | h'
    · subst h'
      simp only [cleanEntry]
      exact hasKey_cleanFold_mono hasKey_setKey_self
    · exact ih h'

theorem cleanFold_eq_append_filterMap {res : Obj} :
    ∀ {acc : Obj}, (∀ p ∈ res, hasKey acc p.1 = false) → keysNodup res →
    cleanFold acc res = acc ++ res.filterMap cleanEntry := by
  induction res with
  | nil => intro acc _ _; simp [cleanFold_nil]
  | cons q rest ih =>
    intro acc hdisj hnodup
    have hn : (q.1 :: rest.map Prod.fst).Nodup := by
      simpa [keysNodup] using hnodup
    have hnodup' : keysNodup rest := (List.nodup_cons.mp hn).2
    have hqrest : ∀ p ∈ rest, p.1 ≠ q.1 := by
      intro p hp he
      exact (List.nodup_cons.mp hn).1 (he ▸ List.mem_map.mpr ⟨p, hp, rfl⟩)
    rcases hq : cleanEntry q with _ | r
    · rw [cleanFold_cons, hq]
      show cleanFold acc rest = _
      rw [ih (fun p hp => hdisj p (List.mem_cons_of_mem _ hp)) hnodup']
      simp [List.filterMap_cons, hq]
    · have hr1 : r.1 = q.1 := (cleanEntry_some hq).1
      have hKfalse : hasKey acc r.1 = false := by
        rw [hr1]; exact hdisj q (List.mem_cons_self q rest)
      have hd : ∀ p ∈ rest, hasKey (acc ++ [(r.1, r.2)]) p.1 = false := by
        intro p hp
        rw [hasKey_append, hdisj p (List.mem_cons_of_mem _ hp)]
        simp only [hasKey, List.any_cons, List.any_nil, Bool.false_or, Bool.or_false]
        simp only [hr1, beq_eq_false_iff_ne, ne_eq]
        exact fun he => hqrest p hp he.symm
      rw [cleanFold_cons, hq]
      show cleanFold (setKey acc r.1 r.2) rest = _
      rw [setKey_of_hasKey_false hKfalse]
      rw [ih hd hnodup']
      rw [List.filterMap_cons, hq, List.append_assoc]
      rfl

theorem cleanShape_cleanPass (res : Obj) : cleanShape (cleanPass res) := by
  intro p hp
  rcases mem_cleanFold hp with h | ⟨q, _, hcq⟩
  · cases h
  · obtain ⟨h1, info, _, h2⟩ := cleanEntry_some hcq
    exact ⟨info, by rw [h1]; exact h2⟩

theorem keysNodup_cleanPass (res : Obj) : keysNodup (cleanPass res) :=
  keysNodup_cleanFold (by simp [keysNodup])

theorem lookup_cons {q : String × Json} {rest : Obj} {k : String} :
    lookup (q :: rest) k = if q.1 == k then some q.2 else lookup rest k := by
  unfold lookup
  rw [List.find?_cons]
  by_cases h : (q.1 == k) = true
  · rw [if_pos h]; simp [h]
  · have hf : (q.1 == k) = false := Bool.eq_false_iff.mpr h
    rw [if_neg h]; simp [hf]

theorem lookup_filterMap_cleanEntry {res : Obj} {k : String} {o : Obj}
    (h : lookup res k = some (Json.obj o)) :
    lookup (res.filterMap cleanEntry) k = some (Json.obj (clean k o)) := by
  induction res with
  | nil => simp [lookup] at h
  | cons q rest ih =>
    rw [lookup_cons] at h
    rw [List.filterMap_cons]
    by_cases hq : (q.1 == k) = true
    · rw [if_pos hq] at h
      have h2 : q.2 = Json.obj o := by simpa using h
      have hce : cleanEntry q = some (q.1, .obj (clean q.1 o)) := by
        simp [cleanEntry, h2]
      rw [hce]
      rw [lookup_cons]
      rw [if_pos (show ((q.1, Json.obj (clean q.1 o)).1 == k) = true from hq)]
      have hq' : q.1 = k := by simpa using hq
      rw [hq']
    · rw [if_neg hq] at h
      rcases hce : cleanEntry q with _ | r
      · exact ih h
      · rw [lookup_cons]
        have hr1 : r.1 = q.1 := (cleanEntry_some hce).1
        rw [if_neg (show ¬ (r.1 == k) = true from by rw [hr1]; exact hq)]
        exact ih h

theorem goodKeys_nil : goodKeys [] := by
  intro p hp; cases hp

theorem goodKeys_setKey {d : Obj} {k : String} {v : Json}
    (hd : goodKeys d) (h1 : k ≠ "record") (h2 : k ≠ "metadata")
    (h3 : k ≠ "licenses") : goodKeys (setKey d k v) := by
  intro p hp
  rcases mem_setKey hp with hp | hp
  · exact hd p hp
  · rw [hp]; exact ⟨h1, h2, h3⟩

theorem goodKeys_updateDict {d₁ d₂ : Obj}
    (h₁ : goodKeys d₁) (h₂ : goodKeys d₂) : goodKeys (updateDict d₁ d₂) := by
  intro p hp
  rcases mem_updateDict hp with hp | hp
  · exact h₁ p hp
  · exact h₂ p hp

theorem goodKeys_cleanPass {res : Obj}
    (h : goodKeys res) : goodKeys (cleanPass res) := by
  intro p hp
  rcases mem_cleanFold hp with hp | ⟨q, hq, hcq⟩
  · cases hp
  · have h1 := (cleanEntry_some hcq).1
    rw [h1]
    exact h q hq

theorem objValues_of_cleanShape {d : Obj} (h : cleanShape d) : objValues d := by
  intro p hp
  rcases h p hp with ⟨info, hinfo⟩
  exact ⟨clean p.1 info, hinfo⟩

theorem loopFields_nil (acc : Obj) : loopFields [] acc = acc := by
  simp only [loopFields]

theorem loopFields_cons (p : String × Json) (rest acc : Obj) :
    loopFields (p :: rest) acc = loopFields rest (stepField p.1 p.2 acc) := by
  simp only [loopFields]

theorem stepField_cases (P : Obj → Prop) (k : String) (v : Json) (acc : Obj)
    (h1 : P acc)
    (h2 : ∀ vfs, v = Json.obj vfs →
      (k == "record" || k == "metadata" || k == "licenses") = false →
      isEntity vfs = true → P (setKey acc k (Json.obj vfs)))
    (h3 : ∀ vfs, v = Json.obj vfs →
      (k == "record" || k == "metadata" || k == "licenses") = false →
      isEntity vfs = false → isWrapper vfs = true →
      P (updateDict acc (normalize_licenses (Json.obj vfs)))) :
    P (stepField k v acc) := by
  unfold stepField
  by_cases hg : (k == "record" || k == "metadata" || k == "licenses") = true
  · rw [if_pos hg]; exact h1
  · have hgf : (k == "record" || k == "metadata" || k == "licenses") = false :=
      Bool.eq_false_iff.mpr hg
    rw [if_neg hg]
    cases v with
    | obj vfs =>
        show P (if isEntity vfs = true then setKey acc k (Json.obj vfs)
                else if isWrapper vfs = true then
                  (if (normalize_licenses (Json.obj vfs)).isEmpty = true then acc
                   else updateDict acc (normalize_licenses (Json.obj vfs)))
                else acc)
        by_cases he : isEntity vfs = true
        · rw [if_pos he]; exact h2 vfs rfl hgf he
        · have hef : isEntity vfs = false := Bool.eq_false_iff.mpr he
          rw [if_neg he]
          by_cases hw : isWrapper vfs = true
          · rw [if_pos hw]
            by_cases hemp : (normalize_licenses (Json.obj vfs)).isEmpty = true
            · rw [if_pos hemp]; exact h1
            · rw [if_neg hemp]; exact h3 vfs rfl hgf hef hw
          · rw [if_neg hw]; exact h1
    | null => exact h1
    | bool b => exact h1
    | num n => exact h1
    | str s => exact h1
    | arr l => exact h1

theorem loopFields_inv (P : Obj → Prop) :
    ∀ (fields acc : Obj), P acc →
    (∀ p ∈ fields, ∀ acc', P acc' → P (stepField p.1 p.2 acc')) →
    P (loopFields fields acc) := by
  intro fields
  induction fields with
  | nil =>
    intro acc h _
    rw [loopFields_nil]; exact h
  | cons p rest ih =>
    intro acc h hstep
    rw [loopFields_cons]
    exact ih _ (hstep p (List.mem_cons_self p rest) acc h)
      (fun q hq => hstep q (List.mem_cons_of_mem _ hq))

theorem structural_ne_of_guard_false {k : String}
    (hg : (k == "record" || k == "metadata" || k == "licenses") = false) :
    k ≠ "record" ∧ k ≠ "metadata" ∧ k ≠ "licenses" := by
  simp only [Bool.or_eq_false_iff, beq_eq_false_iff_ne, ne_eq] at hg
  exact ⟨hg.1.1, hg.1.2, hg.2⟩

theorem goodKeys_stepField {k : String} {v : Json} {acc : Obj}
    (hacc : goodKeys acc)
    (hnorm : ∀ vfs, v = Json.obj vfs → goodKeys (normalize_licenses (Json.obj vfs))) :
    goodKeys (stepField k v acc) := by
  apply stepField_cases _ _ _ _ hacc
  · intro vfs _ hg he
    obtain ⟨h1, h2, h3⟩ := structural_ne_of_guard_false hg
    exact goodKeys_setKey hacc h1 h2 h3
  · intro vfs hv _ _ _
    exact goodKeys_updateDict hacc (hnorm vfs hv)

theorem keysNodup_stepField {k : String} {v : Json} {acc : Obj}
    (hacc : keysNodup acc) : keysNodup (stepField k v acc) := by
  apply stepField_cases _ _ _ _ hacc
  · intro vfs _ _ _; exact keysNodup_setKey hacc
  · intro vfs _ _ _ _; exact keysNodup_updateDict hacc

theorem hasKey_stepField_mono {k : String} {v : Json} {acc : Obj} {x : String}
    (hacc : hasKey acc x = true) : hasKey (stepField k v acc) x = true := by
  apply stepField_cases (fun d => hasKey d x = true) _ _ _ hacc
  · intro vfs _ _ _; exact hasKey_setKey_mono hacc
  · intro vfs _ _ _ _; exact hasKey_updateDict_left hacc

theorem norm_cleanShape (j : Json) : cleanShape (normalize_licenses j) := by
  cases j with
  | obj fs =>
      unfold normalize_licenses
      exact cleanShape_cleanPass _
  | null => simp [normalize_licenses, cleanShape]
  | bool b => simp [normalize_licenses, cleanShape]
  | num n => simp [normalize_licenses, cleanShape]
  | str s => simp [normalize_licenses, cleanShape]
  | arr l => simp [normalize_licenses, cleanShape]

theorem norm_keysNodup (j : Json) : keysNodup (normalize_licenses j) := by
  cases j with
  | obj fs =>
      unfold normalize_licenses
      exact keysNodup_cleanPass _
  | null => simp [normalize_licenses, keysNodup]
  | bool b => simp [normalize_licenses, keysNodup]
  | num n => simp [normalize_licenses, keysNodup]
  | str s => simp [normalize_licenses, keysNodup]
  | arr l => simp [normalize_licenses, keysNodup]

theorem norm_objValues (j : Json) : objValues (normalize_licenses j) :=
  objValues_of_cleanShape (norm_cleanShape j)

theorem norm_goodKeys (j : Json) : goodKeys (normalize_licenses j) := by
  suffices h : ∀ n j, jsize j ≤ n → goodKeys (normalize_licenses j) from
    h (jsize j) j le_rfl
  intro n
  induction n with
  | zero =>
    intro j hj
    exact absurd hj (by have := jsize_pos j; omega)
  | succ n ih =>
    intro j hj
    cases j with
    | obj fs =>
        have hos : osize fs ≤ n := by simp [jsize] at hj; omega
        have hrec : ∀ (key : String) (gfs : Obj),
            lookup fs key = some (Json.obj gfs) →
            goodKeys (normalize_licenses (Json.obj gfs)) := by
          intro key gfs hsome
          apply ih
          have h1 := jsize_lt_of_lookup hsome
          simp [jsize] at h1 ⊢
          omega
        unfold normalize_licenses
        apply goodKeys_cleanPass
        apply loopFields_inv goodKeys fs _ ?seed ?step
        case step =>
          intro p hp acc' hacc'
          apply goodKeys_stepField hacc'
          intro vfs hv
          apply ih
          have h1 : jsize p.2 < 1 + osize fs := jsize_lt_of_mem (k := p.1) (by simpa using hp)
          rw [hv] at h1
          omega
        case seed =>
          split <;> (try split) <;>
            (repeat' first
              | exact goodKeys_nil
              | apply goodKeys_updateDict) <;>
            (apply hrec <;> assumption)
    | null => simp [normalize_licenses, goodKeys]
    | bool b => simp [normalize_licenses, goodKeys]
    | num m => simp [normalize_licenses, goodKeys]
    | str s => simp [normalize_licenses, goodKeys]
    | arr l => simp [normalize_licenses, goodKeys]

theorem seedOf_not_obj {prev : Obj} {x : Option Json}
    (h : ∀ gfs, x ≠ some (Json.obj gfs)) : seedOf prev x = prev := by
  unfold seedOf
  split
  · rename_i x gfs
    exact absurd rfl (h gfs)
  · rfl

theorem normalize_obj_eq (fs : Obj) :
    normalize_licenses (Json.obj fs) =
      cleanPass (loopFields fs
        (seedOf (seedOf [] (lookup fs "record")) (lookup fs "licenses"))) := by
  unfold normalize_licenses
  split
  · next rfs heq =>
      rw [heq]
      split
      · next lfs heq2 => rw [heq2]; simp [seedOf]
      · next hfall => rw [seedOf_not_obj (fun gfs h => hfall gfs h)]; simp [seedOf]
  · next hfall =>
      rw [seedOf_not_obj (fun gfs h => hfall gfs h)]
      split
      · next lfs heq2 => rw [heq2]; simp [seedOf]
      · next hfall2 => rw [seedOf_not_obj (fun gfs h => hfall2 gfs h)]

theorem clean_idem (k : String) (info : Obj) :
    clean k (clean k info) = clean k info := by
  simp [clean, getD, lookup, List.find?]

theorem isEntity_clean (k : String) (info : Obj) :
    isEntity (clean k info) = true := by
  simp [isEntity, clean, hasKey]

theorem clean_no_structural (k : String) (info : Obj) :
    hasKey (clean k info) "record" = false ∧
    hasKey (clean k info) "metadata" = false ∧
    hasKey (clean k info) "licenses" = false := by
  refine ⟨?_, ?_, ?_⟩ <;> simp [clean, hasKey]

theorem keysNodup_tail {p : String × Json} {rest : Obj}
    (h : keysNodup (p :: rest)) : keysNodup rest := by
  have hn : (p.1 :: rest.map Prod.fst).Nodup := by simpa [keysNodup] using h
  exact (List.nodup_cons.mp hn).2

theorem keysNodup_head_ne {p : String × Json} {rest : Obj}
    (h : keysNodup (p :: rest)) : ∀ q ∈ rest, q.1 ≠ p.1 := by
  have hn : (p.1 :: rest.map Prod.fst).Nodup := by simpa [keysNodup] using h
  intro q hq he
  exact (List.nodup_cons.mp hn).1 (he ▸ List.mem_map.mpr ⟨q, hq, rfl⟩)

theorem updateDict_eq_append : ∀ {d₂ d₁ : Obj},
    (∀ p ∈ d₂, hasKey d₁ p.1 = false) → keysNodup d₂ →
    updateDict d₁ d₂ = d₁ ++ d₂ := by
  intro d₂
  induction d₂ with
  | nil => intro d₁ _ _; simp [updateDict_nil_right]
  | cons q rest ih =>
    intro d₁ hdisj hnd
    rw [updateDict_cons]
    rw [setKey_of_hasKey_false (hdisj q (List.mem_cons_self q rest))]
    have hd : ∀ p ∈ rest, hasKey (d₁ ++ [(q.1, q.2)]) p.1 = false := by
      intro p hp
      rw [hasKey_append, hdisj p (List.mem_cons_of_mem _ hp)]
      simp only [hasKey, List.any_cons, List.any_nil, Bool.false_or, Bool.or_false]
      simp only [beq_eq_false_iff_ne, ne_eq]
      exact fun he => keysNodup_head_ne hnd p hp he.symm
    rw [ih hd (keysNodup_tail hnd)]
    rw [List.append_assoc]
    rfl

theorem updateDict_nil_left {d : Obj} (h : keysNodup d) :
    updateDict [] d = d := by
  rw [show updateDict [] d = [] ++ d from updateDict_eq_append (fun p _ => rfl) h]
  simp

theorem filterMap_cleanEntry_of_cleanShape : ∀ {d : Obj}, cleanShape d →
    d.filterMap cleanEntry = d := by
  intro d
  induction d with
  | nil => intro _; rfl
  | cons p rest ih =>
    intro h
    rcases h p (List.mem_cons_self p rest) with ⟨info, hinfo⟩
    have hce : cleanEntry p = some p := by
      unfold cleanEntry
      rw [hinfo]
      show some (p.1, Json.obj (clean p.1 (clean p.1 info))) = some p
      rw [clean_idem, ← hinfo]
    rw [List.filterMap_cons, hce, ih (fun q hq => h q (List.mem_cons_of_mem _ hq))]

theorem cleanPass_of_clean {d : Obj} (hs : cleanShape d) (hn : keysNodup d) :
    cleanPass d = d := by
  unfold cleanPass
  rw [show cleanFold [] d = [] ++ d.filterMap cleanEntry from
    cleanFold_eq_append_filterMap (fun p _ => rfl) hn]
  rw [filterMap_cleanEntry_of_cleanShape hs]
  simp

theorem loopFields_entities : ∀ (d acc : Obj),
    (∀ p ∈ d, (p.1 == "record" || p.1 == "metadata" || p.1 == "licenses") = false ∧
              ∃ cfs, p.2 = Json.obj cfs ∧ isEntity cfs = true) →
    keysNodup d →
    (∀ p ∈ d, hasKey acc p.1 = false) →
    loopFields d acc = acc ++ d := by
  intro d
  induction d with
  | nil => intro acc _ _ _; rw [loopFields_nil]; simp
  | cons p rest ih =>
    intro acc hsh hnd hdisj
    rw [loopFields_cons]
    obtain ⟨hg, cfs, hv, hent⟩ := hsh p (List.mem_cons_self p rest)
    have hstep : stepField p.1 p.2 acc = acc ++ [p] := by
      unfold stepField
      rw [if_neg (by rw [hg]; exact Bool.false_ne_true)]
      rw [hv]
      show (if isEntity cfs = true then setKey acc p.1 (Json.obj cfs)
            else if isWrapper cfs = true then
              (if (normalize_licenses (Json.obj cfs)).isEmpty = true then acc
               else updateDict acc (normalize_licenses (Json.obj cfs)))
            else acc) = acc ++ [p]
      rw [if_pos hent]
      rw [setKey_of_hasKey_false (hdisj p (List.mem_cons_self p rest))]
      rw [← hv]
    rw [hstep]
    have hd : ∀ q ∈ rest, hasKey (acc ++ [p]) q.1 = false := by
      intro q hq
      rw [hasKey_append, hdisj q (List.mem_cons_of_mem _ hq)]
      simp only [hasKey, List.any_cons, List.any_nil, Bool.false_or, Bool.or_false]
      simp only [beq_eq_false_iff_ne, ne_eq]
      exact fun he => keysNodup_head_ne hnd q hq he.symm
    rw [ih (acc ++ [p]) (fun q hq => hsh q (List.mem_cons_of_mem _ hq))
      (keysNodup_tail hnd) hd]
    rw [List.append_assoc]
    rfl

/-- C2: `normalize_licenses` is idempotent — feeding its own output back in
as a document reproduces that output exactly. -/
theorem normalize_idempotent (j : Json) :
    normalize_licenses (Json.obj (normalize_licenses j)) = normalize_licenses j := by
  have hsh := norm_cleanShape j
  have hnd := norm_keysNodup j
  have hgk := norm_goodKeys j
  have hr : lookup (normalize_licenses j) "record" = none :=
    lookup_eq_none_of_hasKey_false
      (hasKey_eq_false_iff.mpr (fun p hp => (hgk p hp).1))
  have hl : lookup (normalize_licenses j) "licenses" = none :=
    lookup_eq_none_of_hasKey_false
      (hasKey_eq_false_iff.mpr (fun p hp => (hgk p hp).2.2))
  rw [normalize_obj_eq, hr, hl]
  simp only [seedOf]
  rw [loopFields_entities (normalize_licenses j) [] ?ent hnd (fun p _ => rfl)]
  · rw [List.nil_append]
    exact cleanPass_of_clean hsh hnd
  case ent =>
    intro p hp
    rcases hsh p hp with ⟨info, hinfo⟩
    obtain ⟨h1, h2, h3⟩ := hgk p hp
    refine ⟨by simp [h1, h2, h3], clean p.1 info, hinfo, isEntity_clean p.1 info⟩

theorem stepField_skip {k : String} {v : Json} {acc : Obj}
    (hg : (k == "record" || k == "metadata" || k == "licenses") = true) :
    stepField k v acc = acc := by
  unfold stepField
  rw [if_pos hg]

theorem stepField_obj_eq (k : String) (vfs : Obj) (acc : Obj)
    (hg : (k == "record" || k == "metadata" || k == "licenses") = false) :
    stepField k (Json.obj vfs) acc =
      if isEntity vfs = true then setKey acc k (Json.obj vfs)
      else if isWrapper vfs = true then
        (if (normalize_licenses (Json.obj vfs)).isEmpty = true then acc
         else updateDict acc (normalize_licenses (Json.obj vfs)))
      else acc := by
  unfold stepField
  rw [if_neg (by rw [hg]; exact Bool.false_ne_true)]

theorem objValues_nil : objValues [] := by
  intro p hp; cases hp

theorem objValues_setKey {d : Obj} {k : String} {v : Json}
    (hd : objValues d) (ho : ∃ o, v = Json.obj o) : objValues (setKey d k v) := by
  intro p hp
  rcases mem_setKey hp with hp | hp
  · exact hd p hp
  · rcases ho with ⟨o, ho⟩
    exact ⟨o, by rw [hp]; exact ho⟩

theorem objValues_updateDict {d₁ d₂ : Obj}
    (h₁ : objValues d₁) (h₂ : objValues d₂) : objValues (updateDict d₁ d₂) := by
  intro p hp
  rcases mem_updateDict hp with hp | hp
  · exact h₁ p hp
  · exact h₂ p hp

theorem objValues_stepField {k : String} {v : Json} {acc : Obj}
    (hacc : objValues acc) : objValues (stepField k v acc) := by
  apply stepField_cases _ _ _ _ hacc
  · intro vfs _ _ _
    exact objValues_setKey hacc ⟨vfs, rfl⟩
  · intro vfs _ _ _ _
    exact objValues_updateDict hacc (norm_objValues _)

theorem objValues_seedOf {prev : Obj} {x : Option Json}
    (h : objValues prev) : objValues (seedOf prev x) := by
  unfold seedOf
  split
  · rename_i a gfs
    exact objValues_updateDict h (norm_objValues _)
  · exact h

theorem keysNodup_seedOf {prev : Obj} {x : Option Json}
    (h : keysNodup prev) : keysNodup (seedOf prev x) := by
  unfold seedOf
  split
  · rename_i a gfs
    exact keysNodup_updateDict h
  · exact h

theorem loopFields_hasKey_entity : ∀ (fields acc : Obj) (k : String) (vfs : Obj),
    (k, Json.obj vfs) ∈ fields →
    (k == "record" || k == "metadata" || k == "licenses") = false →
    isEntity vfs = true →
    hasKey (loopFields fields acc) k = true := by
  intro fields
  induction fields with
  | nil =>
    intro acc k vfs h _ _
    cases h
  | cons p rest ih =>
    intro acc k vfs hmem hg hent
    rw [loopFields_cons]
    rcases List.mem_cons.mp hmem with heq | hmem'
    · have hstep : hasKey (stepField p.1 p.2 acc) k = true := by
        rw [← heq]
        show hasKey (stepField k (Json.obj vfs) acc) k = true
        rw [stepField_obj_eq k vfs acc hg, if_pos hent]
        exact hasKey_setKey_self
      exact loopFields_inv (fun d => hasKey d k = true) rest _ hstep
        (fun q _ acc' h => hasKey_stepField_mono h)
    · exact ih _ k vfs hmem' hg hent

theorem lookup_cleanPass_setKey {S : Obj} {id : String} {v2fs : Obj}
    (hnodS : keysNodup S) :
    lookup (cleanPass (setKey S id (Json.obj v2fs))) id =
      some (Json.obj (clean id v2fs)) := by
  have hnod : keysNodup (setKey S id (Json.obj v2fs)) := keysNodup_setKey hnodS
  unfold cleanPass
  rw [show cleanFold [] (setKey S id (Json.obj v2fs)) =
      [] ++ (setKey S id (Json.obj v2fs)).filterMap cleanEntry from
    cleanFold_eq_append_filterMap (fun p _ => rfl) hnod]
  rw [List.nil_append]
  exact lookup_filterMap_cleanEntry setKey_lookup_self

theorem loop_two_entries (recfs v2fs : Obj) (id : String) (acc : Obj)
    (hg : (id == "record" || id == "metadata" || id == "licenses") = false)
    (hent2 : isEntity v2fs = true) :
    loopFields [("record", Json.obj recfs), (id, Json.obj v2fs)] acc =
      setKey acc id (Json.obj v2fs) := by
  rw [loopFields_cons]
  rw [show stepField ("record", Json.obj recfs).1 ("record", Json.obj recfs).2 acc = acc from
    stepField_skip (by rfl)]
  rw [loopFields_cons]
  rw [show stepField (id, Json.obj v2fs).1 (id, Json.obj v2fs).2 acc =
      setKey acc id (Json.obj v2fs) from by
    show stepField id (Json.obj v2fs) acc = _
    rw [stepField_obj_eq id v2fs acc hg, if_pos hent2]]
  rw [loopFields_nil]

theorem normalize_single_wrapper_key (w : String) (x : Json)
    (hw : (w == "record" || w == "metadata" || w == "licenses") = true) :
    normalize_licenses (Json.obj [(w, x)]) =
      cleanPass (seedOf (seedOf [] (lookup [(w, x)] "record"))
        (lookup [(w, x)] "licenses")) := by
  rw [normalize_obj_eq]
  rw [loopFields_cons]
  rw [show stepField (w, x).1 (w, x).2
      (seedOf (seedOf [] (lookup [(w, x)] "record")) (lookup [(w, x)] "licenses")) =
      seedOf (seedOf [] (lookup [(w, x)] "record")) (lookup [(w, x)] "licenses") from
    stepField_skip hw]
  rw [loopFields_nil]

/-- C4: `normalize_licenses` maps every non-object input (`None`, booleans,
numbers, strings, arrays) and the empty object to the empty mapping. -/
theorem normalize_non_object_empty :
    normalize_licenses Json.null = [] ∧
    (∀ b, normalize_licenses (Json.bool b) = []) ∧
    (∀ n : Int, normalize_licenses (Json.num n) = []) ∧
    (∀ s, normalize_licenses (Json.str s) = []) ∧
    (∀ l, normalize_licenses (Json.arr l) = []) ∧
    normalize_licenses (Json.obj []) = [] := by
  refine ⟨?_, ?_, ?_, ?_, ?_, ?_⟩
  · simp [normalize_licenses]
  · intro b; simp [normalize_licenses]
  · intro n; simp [normalize_licenses]
  · intro s; simp [normalize_licenses]
  · intro l; simp [normalize_licenses]
  · rw [normalize_obj_eq, loopFields_nil]; rfl

/-- C3 counterexample: on the doubly-wrapped document
`{"record": {"record": {"bob": {"ativo": false}}}}` the normalizer returns
the empty mapping — `ativo` is not one of the four fields
(`key`, `status`, `expiresAt`, `periodDays`) the code recognizes, so `bob`
is dropped rather than captured with defaults. -/
theorem normalize_double_wrapped_ativo_dropped :
    normalize_licenses (Json.obj [("record", Json.obj [("record",
        Json.obj [("bob", Json.obj [("ativo", Json.bool false)])])])]) = [] ∧
    hasKey (normalize_licenses (Json.obj [("record", Json.obj [("record",
        Json.obj [("bob", Json.obj [("ativo", Json.bool false)])])])])) "bob" = false := by
  have h : normalize_licenses (Json.obj [("record", Json.obj [("record",
      Json.obj [("bob", Json.obj [("ativo", Json.bool false)])])])]) = [] := by
    simp [normalize_licenses, loopFields, stepField, cleanPass, cleanFold, cleanEntry,
      lookup, updateDict, setKey, isEntity, isWrapper, hasKey, clean, getD, List.find?]
  exact ⟨h, by rw [h]; rfl⟩

/-- C3 amended: for a doubly-wrapped document whose inner record carries one
of the recognized fields — `{"record": {"record": {"bob": {"status":
"inactive"}}}}` — normalization unwraps both levels and yields `bob` in
canonical shape with defaults for the missing fields. -/
theorem normalize_double_wrapped_status :
    normalize_licenses (Json.obj [("record", Json.obj [("record",
        Json.obj [("bob", Json.obj [("status", Json.str "inactive")])])])]) =
      [("bob", Json.obj [("key", Json.str "bob"), ("status", Json.str "inactive"),
        ("hardwareId", Json.null), ("expiresAt", Json.str ""),
        ("periodDays", Json.num 30), ("allowedProviders", Json.arr []),
        ("createdAt", Json.str "")])] := by
  simp [normalize_licenses, loopFields, stepField, cleanPass, cleanFold, cleanEntry,
    lookup, updateDict, setKey, isEntity, isWrapper, hasKey, clean, getD, List.find?]

/-- C1 counterexample: the entry `alice ↦ {"ativo": false}` has a value
containing `ativo` — a field the claim lists as recognized — yet
`normalize_licenses` returns the empty mapping instead of capturing
`alice`: the code only tests for `key`, `status`, `expiresAt` and
`periodDays`. -/
theorem normalize_ativo_entry_not_captured :
    normalize_licenses (Json.obj [("alice", Json.obj [("ativo", Json.bool false)])]) = [] ∧
    hasKey (normalize_licenses
      (Json.obj [("alice", Json.obj [("ativo", Json.bool false)])])) "alice" = false := by
  have h : normalize_licenses
      (Json.obj [("alice", Json.obj [("ativo", Json.bool false)])]) = [] := by
    simp [normalize_licenses, loopFields, stepField, cleanPass, cleanFold, cleanEntry,
      lookup, updateDict, setKey, isEntity, isWrapper, hasKey, clean, getD, List.find?]
  exact ⟨h, by rw [h]; rfl⟩

/-- C1 amended: for every document and every top-level entry, other than the
structural keys `record`/`metadata`/`licenses`, whose value is an object
containing at least one of the fields the code recognizes (`key`, `status`,
`expiresAt`, `periodDays`), `normalize_licenses` captures that key in the
result, and every value of the result is a canonical record with every
default filled in. -/
theorem normalize_captures_entities (fs : Obj) (k : String) (vfs : Obj)
    (hmem : (k, Json.obj vfs) ∈ fs)
    (h1 : k ≠ "record") (h2 : k ≠ "metadata") (h3 : k ≠ "licenses")
    (hent : isEntity vfs = true) :
    hasKey (normalize_licenses (Json.obj fs)) k = true ∧
    (∀ p ∈ normalize_licenses (Json.obj fs),
      ∃ info, p.2 = Json.obj (clean p.1 info)) := by
  refine ⟨?_, norm_cleanShape _⟩
  rw [normalize_obj_eq]
  have hg : (k == "record" || k == "metadata" || k == "licenses") = false := by
    simp [h1, h2, h3]
  have hloop : hasKey (loopFields fs
      (seedOf (seedOf [] (lookup fs "record")) (lookup fs "licenses"))) k = true :=
    loopFields_hasKey_entity fs _ k vfs hmem hg hent
  have hov : objValues (loopFields fs
      (seedOf (seedOf [] (lookup fs "record")) (lookup fs "licenses"))) := by
    apply loopFields_inv objValues
    · exact objValues_seedOf (objValues_seedOf objValues_nil)
    · intro p _ acc' hacc'
      exact objValues_stepField hacc'
  rcases hasKey_iff.mp hloop with ⟨v, hv⟩
  rcases hov _ hv with ⟨o, ho⟩
  have hv' : (k, Json.obj o) ∈ loopFields fs
      (seedOf (seedOf [] (lookup fs "record")) (lookup fs "licenses")) := by
    rw [show v = Json.obj o from ho] at hv
    exact hv
  exact hasKey_cleanFold_of_mem hv'

/-- Witness for C1 at the document `{"alice": {"status": "x"}}`. -/
theorem normalize_captures_entities_witness :
    hasKey (normalize_licenses
      (Json.obj [("alice", Json.obj [("status", Json.str "x")])])) "alice" = true ∧
    (∀ p ∈ normalize_licenses (Json.obj [("alice", Json.obj [("status", Json.str "x")])]),
      ∃ info, p.2 = Json.obj (clean p.1 info)) :=
  normalize_captures_entities _ "alice" [("status", Json.str "x")]
    (by simp) (by decide) (by decide) (by decide) (by decide)

/-- C5: when the same identifier appears once inside the `record` wrapper
and once as a literal entity entry of the same object, the result has
exactly one entry per identifier (keys of the output are pairwise
distinct for every input), and the literal entry — found later in the
traversal — overwrites the record-seeded one: the output maps the
identifier to the cleaned literal record. -/
theorem normalize_last_write_wins (recfs v1fs v2fs : Obj) (id : String)
    (h1 : id ≠ "record") (h2 : id ≠ "metadata") (h3 : id ≠ "licenses")
    (hv1 : lookup recfs id = some (Json.obj v1fs)) (hent1 : isEntity v1fs = true)
    (hent2 : isEntity v2fs = true) :
    lookup (normalize_licenses
        (Json.obj [("record", Json.obj recfs), (id, Json.obj v2fs)])) id =
      some (Json.obj (clean id v2fs)) ∧
    (∀ j, keysNodup (normalize_licenses j)) := by
  refine ⟨?_, norm_keysNodup⟩
  have hg : (id == "record" || id == "metadata" || id == "licenses") = false := by
    simp [h1, h2, h3]
  have hrec : lookup [("record", Json.obj recfs), (id, Json.obj v2fs)] "record" =
      some (Json.obj recfs) := by
    rw [lookup_cons]
    rw [if_pos (by rfl)]
  have hlic : lookup [("record", Json.obj recfs), (id, Json.obj v2fs)] "licenses" = none := by
    rw [lookup_cons]
    rw [if_neg (by simp)]
    rw [lookup_cons]
    rw [if_neg (by simp [h3])]
    rfl
  rw [normalize_obj_eq, hrec, hlic]
  simp only [seedOf]
  rw [loop_two_entries recfs v2fs id _ hg hent2]
  exact lookup_cleanPass_setKey (keysNodup_updateDict (by simp [keysNodup]))

/-- Witness for C5: the document
`{"record": {"dave": {"status": "old"}}, "dave": {"status": "new"}}`
resolves `dave` to the cleaned literal entry. -/
theorem normalize_last_write_wins_witness :
    lookup (normalize_licenses (Json.obj
        [("record", Json.obj [("dave", Json.obj [("status", Json.str "old")])]),
         ("dave", Json.obj [("status", Json.str "new")])])) "dave" =
      some (Json.obj (clean "dave" [("status", Json.str "new")])) ∧
    (∀ j, keysNodup (normalize_licenses j)) :=
  normalize_last_write_wins [("dave", Json.obj [("status", Json.str "old")])]
    [("status", Json.str "old")] [("status", Json.str "new")] "dave"
    (by decide) (by decide) (by decide)
    (by rw [lookup_cons]; rw [if_pos (by rfl)]) (by decide) (by decide)

/-- C6: no structural key is ever emitted as an identifier, and every value
in the output is a canonical record object that contains neither a
`record` nor a `metadata` key — wrapper objects never appear as entities. -/
theorem normalize_no_structural_output (j : Json) (p : String × Json)
    (hp : p ∈ normalize_licenses j) :
    p.1 ≠ "record" ∧ p.1 ≠ "metadata" ∧
    ∃ cfs, p.2 = Json.obj cfs ∧
      hasKey cfs "record" = false ∧ hasKey cfs "metadata" = false := by
  obtain ⟨ha, hb, _⟩ := norm_goodKeys j p hp
  rcases norm_cleanShape j p hp with ⟨info, hinfo⟩
  exact ⟨ha, hb, clean p.1 info, hinfo,
    (clean_no_structural p.1 info).1, (clean_no_structural p.1 info).2.1⟩

/-- Witness for C6 at the single entry produced by
`{"alice": {"status": "x"}}`. -/
theorem normalize_no_structural_output_witness :
    (("alice", Json.obj (clean "alice" [("status", Json.str "x")])) : String × Json).1 ≠ "record" ∧
    (("alice", Json.obj (clean "alice" [("status", Json.str "x")])) : String × Json).1 ≠ "metadata" ∧
    ∃ cfs, (("alice", Json.obj (clean "alice" [("status", Json.str "x")])) : String × Json).2 = Json.obj cfs ∧
      hasKey cfs "record" = false ∧ hasKey cfs "metadata" = false :=
  normalize_no_structural_output
    (Json.obj [("alice", Json.obj [("status", Json.str "x")])]) _
    (by simp [normalize_licenses, loopFields, stepField, cleanPass, cleanFold, cleanEntry,
      lookup, updateDict, setKey, isEntity, isWrapper, hasKey, clean, getD, List.find?])

theorem hasKey_updateDict_right {d₂ : Obj} {k : String} :
    ∀ {d₁ : Obj}, hasKey d₂ k = true → hasKey (updateDict d₁ d₂) k = true := by
  induction d₂ with
  | nil =>
    intro d₁ h
    simp [hasKey] at h
  | cons q rest ih =>
    intro d₁ h
    rw [updateDict_cons]
    by_cases hq : (q.1 == k) = true
    · have hk' : k = q.1 := by have := hq; simp at this; exact this.symm
      apply hasKey_updateDict_left
      rw [hk']
      exact hasKey_setKey_self
    · have hr : hasKey rest k = true := by
        have h' : ((q.1 == k) || rest.any (fun p => p.1 == k)) = true := by
          simpa [hasKey, List.any_cons] using h
        rcases Bool.or_eq_true_iff.mp h' with h'' | h''
        · exact absurd h'' hq
        · exact h''
      exact ih hr

theorem hasKey_cleanPass_of_objValues {res : Obj} {x : String}
    (hov : objValues res) (hk : hasKey res x = true) :
    hasKey (cleanPass res) x = true := by
  rcases hasKey_iff.mp hk with ⟨v, hv⟩
  rcases hov _ hv with ⟨o, ho⟩
  have hv' : (x, Json.obj o) ∈ res := by
    rw [show v = Json.obj o from ho] at hv
    exact hv
  exact hasKey_cleanFold_of_mem hv'

theorem objValues_loop_seed (fs : Obj) (r l : Option Json) :
    objValues (loopFields fs (seedOf (seedOf [] r) l)) := by
  apply loopFields_inv objValues
  · exact objValues_seedOf (objValues_seedOf objValues_nil)
  · intro p _ acc' hacc'
    exact objValues_stepField hacc'

theorem seedOf_obj (prev : Obj) (gfs : Obj) :
    seedOf prev (some (Json.obj gfs)) =
      updateDict prev (normalize_licenses (Json.obj gfs)) := rfl

theorem loopFields_hasKey_wrapper : ∀ (fields acc : Obj) (k : String) (vfs : Obj)
    (x : String),
    (k, Json.obj vfs) ∈ fields →
    (k == "record" || k == "metadata" || k == "licenses") = false →
    isEntity vfs = false → isWrapper vfs = true →
    hasKey (normalize_licenses (Json.obj vfs)) x = true →
    hasKey (loopFields fields acc) x = true := by
  intro fields
  induction fields with
  | nil =>
    intro acc k vfs x h _ _ _ _
    cases h
  | cons p rest ih =>
    intro acc k vfs x hmem hg hent hw hx
    rw [loopFields_cons]
    rcases List.mem_cons.mp hmem with heq | hmem'
    · have hstep : hasKey (stepField p.1 p.2 acc) x = true := by
        rw [← heq]
        show hasKey (stepField k (Json.obj vfs) acc) x = true
        rw [stepField_obj_eq k vfs acc hg]
        rw [if_neg (by simp [hent]), if_pos hw]
        by_cases hemp : (normalize_licenses (Json.obj vfs)).isEmpty = true
        · exact absurd hx (by rw [List.isEmpty_iff.mp hemp]; simp [hasKey])
        · rw [if_neg hemp]
          exact hasKey_updateDict_right hx
      exact loopFields_inv (fun d => hasKey d x = true) rest _ hstep
        (fun q _ acc' h => hasKey_stepField_mono h)
    · exact ih _ k vfs x hmem' hg hent hw hx

/-- C10: the key `licenses` is treated exactly like the wrapper key
`record`. A single-key document under either key normalizes identically;
`licenses` never appears as an identifier in any output; for every
document with a dict under its `licenses` key, the result is obtained by
recursively normalizing that sub-document, merging it (`dict.update`)
into the seeded result and then walking the remaining items — so every
identifier extracted from the sub-document survives into the final
result, whatever sibling entries the document carries; a child object
that is not entity-shaped but contains a `licenses` key is recursed into
as a wrapper and its extracted identifiers are likewise merged into the
result alongside arbitrary siblings (a lone such child even yields
exactly the child's normalization). -/
theorem licenses_wrapper_like_record :
    (∀ x : Json, normalize_licenses (Json.obj [("licenses", x)]) =
        normalize_licenses (Json.obj [("record", x)])) ∧
    (∀ j, ∀ p ∈ normalize_licenses j, p.1 ≠ "licenses") ∧
    (∀ fs lfs : Obj, lookup fs "licenses" = some (Json.obj lfs) →
      normalize_licenses (Json.obj fs) =
        cleanPass (loopFields fs (updateDict (seedOf [] (lookup fs "record"))
          (normalize_licenses (Json.obj lfs)))) ∧
      ∀ x : String, hasKey (normalize_licenses (Json.obj lfs)) x = true →
        hasKey (normalize_licenses (Json.obj fs)) x = true) ∧
    (∀ (k : String) (vfs : Obj), k ≠ "record" → k ≠ "metadata" → k ≠ "licenses" →
      isEntity vfs = false → hasKey vfs "licenses" = true →
      normalize_licenses (Json.obj [(k, Json.obj vfs)]) =
        normalize_licenses (Json.obj vfs)) ∧
    (∀ (fs : Obj) (k : String) (vfs : Obj),
      (k, Json.obj vfs) ∈ fs → k ≠ "record" → k ≠ "metadata" → k ≠ "licenses" →
      isEntity vfs = false → hasKey vfs "licenses" = true →
      ∀ x : String, hasKey (normalize_licenses (Json.obj vfs)) x = true →
        hasKey (normalize_licenses (Json.obj fs)) x = true) := by
  refine ⟨?_, fun j p hp => (norm_goodKeys j p hp).2.2, ?_, ?_, ?_⟩
  · intro x
    rw [normalize_single_wrapper_key "licenses" x (by decide),
        normalize_single_wrapper_key "record" x (by decide)]
    have e1 : lookup [("licenses", x)] "record" = none := by
      rw [lookup_cons]; rw [if_neg (by simp)]; rfl
    have e2 : lookup [("licenses", x)] "licenses" = some x := by
      rw [lookup_cons]; rw [if_pos (by rfl)]
    have e3 : lookup [("record", x)] "record" = some x := by
      rw [lookup_cons]; rw [if_pos (by rfl)]
    have e4 : lookup [("record", x)] "licenses" = none := by
      rw [lookup_cons]; rw [if_neg (by simp)]; rfl
    rw [e1, e2, e3, e4]
    rfl
  · intro fs lfs hl
    constructor
    · rw [normalize_obj_eq, hl, seedOf_obj]
    · intro x hx
      rw [normalize_obj_eq]
      apply hasKey_cleanPass_of_objValues (objValues_loop_seed fs _ _)
      apply loopFields_inv (fun d => hasKey d x = true)
      · rw [hl, seedOf_obj]
        exact hasKey_updateDict_right hx
      · intro p _ acc' h
        exact hasKey_stepField_mono h
  · intro k vfs h1 h2 h3 hent hlic
    have hg : (k == "record" || k == "metadata" || k == "licenses") = false := by
      simp [h1, h2, h3]
    have hw : isWrapper vfs = true := by simp [isWrapper, hlic]
    rw [normalize_obj_eq]
    have e1 : lookup [(k, Json.obj vfs)] "record" = none := by
      rw [lookup_cons]; rw [if_neg (by simp [h1])]; rfl
    have e2 : lookup [(k, Json.obj vfs)] "licenses" = none := by
      rw [lookup_cons]; rw [if_neg (by simp [h3])]; rfl
    rw [e1, e2]
    show cleanPass (loopFields [(k, Json.obj vfs)] []) = normalize_licenses (Json.obj vfs)
    rw [loopFields_cons]
    rw [show stepField (k, Json.obj vfs).1 (k, Json.obj vfs).2 ([] : Obj) =
        (if (normalize_licenses (Json.obj vfs)).isEmpty = true then ([] : Obj)
         else updateDict [] (normalize_licenses (Json.obj vfs))) from by
      show stepField k (Json.obj vfs) ([] : Obj) = _
      rw [stepField_obj_eq k vfs [] hg]
      rw [if_neg (by simp [hent]), if_pos hw]]
    rw [loopFields_nil]
    by_cases hemp : (normalize_licenses (Json.obj vfs)).isEmpty = true
    · rw [if_pos hemp]
      rw [show normalize_licenses (Json.obj vfs) = [] from List.isEmpty_iff.mp hemp]
      rfl
    · rw [if_neg hemp]
      rw [updateDict_nil_left (norm_keysNodup _)]
      exact cleanPass_of_clean (norm_cleanShape _) (norm_keysNodup _)
  · intro fs k vfs hmem h1 h2 h3 hent hlic x hx
    have hg : (k == "record" || k == "metadata" || k == "licenses") = false := by
      simp [h1, h2, h3]
    have hw : isWrapper vfs = true := by simp [isWrapper, hlic]
    rw [normalize_obj_eq]
    apply hasKey_cleanPass_of_objValues (objValues_loop_seed fs _ _)
    exact loopFields_hasKey_wrapper fs _ k vfs x hmem hg hent hw hx

/-- Witness for C10, with sibling entries present in every merge: in
`{"licenses": {"bob": {"status": "x"}}, "carol": {"status": "y"}}` the
identifier `bob` extracted from the `licenses` sub-document survives next
to the sibling `carol`, and in `{"site": {"licenses": {"bob": {"status":
"x"}}}, "carol": {"status": "y"}}` the wrapper child `site` is recursed
into and `bob` again survives next to `carol`; a lone wrapper child
normalizes to exactly the child's normalization. -/
theorem licenses_wrapper_like_record_witness :
    hasKey (normalize_licenses (Json.obj
        [("licenses", Json.obj [("bob", Json.obj [("status", Json.str "x")])]),
         ("carol", Json.obj [("status", Json.str "y")])])) "bob" = true ∧
    hasKey (normalize_licenses (Json.obj
        [("site", Json.obj [("licenses",
            Json.obj [("bob", Json.obj [("status", Json.str "x")])])]),
         ("carol", Json.obj [("status", Json.str "y")])])) "bob" = true ∧
    normalize_licenses (Json.obj [("site", Json.obj
        [("licenses", Json.obj [("bob", Json.obj [("status", Json.str "x")])])])]) =
      normalize_licenses (Json.obj
        [("licenses", Json.obj [("bob", Json.obj [("status", Json.str "x")])])]) :=
  ⟨(licenses_wrapper_like_record.2.2.1
      [("licenses", Json.obj [("bob", Json.obj [("status", Json.str "x")])]),
       ("carol", Json.obj [("status", Json.str "y")])]
      [("bob", Json.obj [("status", Json.str "x")])] (by rfl)).2 "bob"
      (by simp [normalize_licenses, loopFields, stepField, cleanPass, cleanFold,
        cleanEntry, lookup, updateDict, setKey, isEntity, isWrapper, hasKey, clean,
        getD, List.find?]),
   licenses_wrapper_like_record.2.2.2.2
      [("site", Json.obj [("licenses",
          Json.obj [("bob", Json.obj [("status", Json.str "x")])])]),
       ("carol", Json.obj [("status", Json.str "y")])]
      "site" [("licenses", Json.obj [("bob", Json.obj [("status", Json.str "x")])])]
      (by simp) (by decide) (by decide) (by decide) (by decide) (by decide) "bob"
      (by simp [normalize_licenses, loopFields, stepField, cleanPass, cleanFold,
        cleanEntry, lookup, updateDict, setKey, isEntity, isWrapper, hasKey, clean,
        getD, List.find?]),
   licenses_wrapper_like_record.2.2.2.1 "site"
     [("licenses", Json.obj [("bob", Json.obj [("status", Json.str "x")])])]
     (by decide) (by decide) (by decide) (by decide) (by decide)⟩

theorem stepFieldFuel_spec (n : Nat)
    (hI : ∀ j, jsize j ≤ n → normalizeFuel n j = some (normalize_licenses j))
    (k : String) (v : Json) (acc : Obj) (hv : jsize v ≤ n) :
    stepFieldFuel (normalizeFuel n) k v acc = some (stepField k v acc) := by
  unfold stepFieldFuel stepField
  by_cases hg : (k == "record" || k == "metadata" || k == "licenses") = true
  · rw [if_pos hg, if_pos hg]
  · rw [if_neg hg, if_neg hg]
    cases v with
    | obj vfs =>
        have hn : normalizeFuel n (Json.obj vfs) =
            some (normalize_licenses (Json.obj vfs)) := hI _ hv
        show ((if isEntity vfs = true then some (setKey acc k (Json.obj vfs))
              else if isWrapper vfs = true then
                (normalizeFuel n (Json.obj vfs)).map
                  (fun nested => if nested.isEmpty = true then acc
                    else updateDict acc nested)
              else some acc) : Option Obj) =
          some (if isEntity vfs = true then setKey acc k (Json.obj vfs)
                else if isWrapper vfs = true then
                  (if (normalize_licenses (Json.obj vfs)).isEmpty = true then acc
                   else updateDict acc (normalize_licenses (Json.obj vfs)))
                else acc)
        rw [hn]
        by_cases he : isEntity vfs = true
        · rw [if_pos he, if_pos he]
        · rw [if_neg he, if_neg he]
          by_cases hw : isWrapper vfs = true
          · rw [if_pos hw, if_pos hw]
            rfl
          · rw [if_neg hw, if_neg hw]
    | null => rfl
    | bool b => rfl
    | num m => rfl
    | str s => rfl
    | arr l => rfl

theorem loopFieldsFuel_spec (n : Nat)
    (hI : ∀ j, jsize j ≤ n → normalizeFuel n j = some (normalize_licenses j)) :
    ∀ (fields acc : Obj), (∀ p ∈ fields, jsize p.2 ≤ n) →
    loopFieldsFuel (normalizeFuel n) fields acc = some (loopFields fields acc) := by
  intro fields
  induction fields with
  | nil =>
    intro acc _
    rw [loopFields_nil]
    rfl
  | cons p rest ih =>
    intro acc hsz
    have hstep := stepFieldFuel_spec n hI p.1 p.2 acc (hsz p (List.mem_cons_self p rest))
    rw [loopFields_cons]
    show (match stepFieldFuel (normalizeFuel n) p.1 p.2 acc with
          | none => none
          | some acc' => loopFieldsFuel (normalizeFuel n) rest acc') =
      some (loopFields rest (stepField p.1 p.2 acc))
    rw [hstep]
    exact ih _ (fun q hq => hsz q (List.mem_cons_of_mem _ hq))

theorem seedFuel_record (n : Nat) (fs : Obj)
    (hI : ∀ j, jsize j ≤ n → normalizeFuel n j = some (normalize_licenses j))
    (hos : osize fs ≤ n) :
    (match lookup fs "record" with
     | some (.obj rfs) => (normalizeFuel n (.obj rfs)).map (updateDict [])
     | _ => some []) = some (seedOf [] (lookup fs "record")) := by
  rcases hr : lookup fs "record" with _ | rv
  · simp [seedOf]
  · cases rv with
    | obj rfs =>
        have hsz : jsize (Json.obj rfs) ≤ n := by
          have := jsize_lt_of_lookup hr
          omega
        show (normalizeFuel n (Json.obj rfs)).map (updateDict []) =
          some (seedOf [] (some (Json.obj rfs)))
        rw [hI _ hsz]
        simp [seedOf]
    | null => simp [seedOf]
    | bool b => simp [seedOf]
    | num m => simp [seedOf]
    | str s => simp [seedOf]
    | arr l => simp [seedOf]

theorem seedFuel_licenses (n : Nat) (fs res₁ : Obj)
    (hI : ∀ j, jsize j ≤ n → normalizeFuel n j = some (normalize_licenses j))
    (hos : osize fs ≤ n) :
    (match lookup fs "licenses" with
     | some (.obj lfs) => (normalizeFuel n (.obj lfs)).map (updateDict res₁)
     | _ => some res₁) = some (seedOf res₁ (lookup fs "licenses")) := by
  rcases hl : lookup fs "licenses" with _ | lv
  · simp [seedOf]
  · cases lv with
    | obj lfs =>
        have hsz : jsize (Json.obj lfs) ≤ n := by
          have := jsize_lt_of_lookup hl
          omega
        show (normalizeFuel n (Json.obj lfs)).map (updateDict res₁) =
          some (seedOf res₁ (some (Json.obj lfs)))
        rw [hI _ hsz]
        simp [seedOf]
    | null => simp [seedOf]
    | bool b => simp [seedOf]
    | num m => simp [seedOf]
    | str s => simp [seedOf]
    | arr l => simp [seedOf]

theorem normalizeFuel_spec : ∀ (n : Nat) (j : Json), jsize j ≤ n →
    normalizeFuel n j = some (normalize_licenses j) := by
  intro n
  induction n with
  | zero =>
    intro j hj
    exact absurd hj (by have := jsize_pos j; omega)
  | succ n ih =>
    intro j hj
    cases j with
    | obj fs =>
        have hos : osize fs ≤ n := by simp [jsize] at hj; omega
        rw [normalize_obj_eq]
        show ((match lookup fs "record" with
               | some (.obj rfs) => (normalizeFuel n (.obj rfs)).map (updateDict [])
               | _ => some []).bind (fun res1 =>
              (match lookup fs "licenses" with
               | some (.obj lfs) => (normalizeFuel n (.obj lfs)).map (updateDict res1)
               | _ => some res1).bind (fun res2 =>
              (loopFieldsFuel (normalizeFuel n) fs res2).map cleanPass))) =
          some (cleanPass (loopFields fs
            (seedOf (seedOf [] (lookup fs "record")) (lookup fs "licenses"))))
        rw [seedFuel_record n fs ih hos]
        show ((match lookup fs "licenses" with
               | some (.obj lfs) => (normalizeFuel n (.obj lfs)).map
                   (updateDict (seedOf [] (lookup fs "record")))
               | _ => some (seedOf [] (lookup fs "record"))).bind (fun res2 =>
              (loopFieldsFuel (normalizeFuel n) fs res2).map cleanPass)) =
          some (cleanPass (loopFields fs
            (seedOf (seedOf [] (lookup fs "record")) (lookup fs "licenses"))))
        rw [seedFuel_licenses n fs _ ih hos]
        show (loopFieldsFuel (normalizeFuel n) fs
            (seedOf (seedOf [] (lookup fs "record")) (lookup fs "licenses"))).map
              cleanPass =
          some (cleanPass (loopFields fs
            (seedOf (seedOf [] (lookup fs "record")) (lookup fs "licenses"))))
        rw [loopFieldsFuel_spec n ih fs _ ?bound]
        · rfl
        case bound =>
          intro p hp
          have := jsize_lt_of_mem (k := p.1) (show (p.1, p.2) ∈ fs from hp)
          omega
    | null => simp [normalizeFuel, normalize_licenses]
    | bool b => simp [normalizeFuel, normalize_licenses]
    | num m => simp [normalizeFuel, normalize_licenses]
    | str s => simp [normalizeFuel, normalize_licenses]
    | arr l => simp [normalizeFuel, normalize_licenses]

/-- C7: `normalize_licenses` is total — for every JSON input the
fuel-bounded evaluator succeeds (never returns `none`) with fuel equal to
the size of the input, producing exactly the value of the pure function:
the recursion depth is bounded by the input size, so the function
terminates without error on arbitrarily nested or malformed documents,
returning at worst an empty mapping. -/
theorem normalize_total_fuel (j : Json) :
    normalizeFuel (jsize j) j = some (normalize_licenses j) :=
  normalizeFuel_spec (jsize j) j le_rfl

theorem digitChar_mod10_isDigit (x : Nat) :
    (Nat.digitChar (x % 10)).isDigit = true := by
  have h : x % 10 < 10 := Nat.mod_lt x (by omega)
  have hall : ∀ m < 10, (Nat.digitChar m).isDigit = true := by decide
  exact hall _ h

theorem strftime_YmdHM_length (dt : PyDateTime) :
    (strftime_YmdHM dt).length = 12 := rfl

theorem strftime_YmdHM_digits (dt : PyDateTime) :
    ∀ c ∈ (strftime_YmdHM dt).toList, c.isDigit = true := by
  intro c hc
  have hc' : c ∈ [Nat.digitChar (dt.year / 1000 % 10), Nat.digitChar (dt.year / 100 % 10),
      Nat.digitChar (dt.year / 10 % 10), Nat.digitChar (dt.year % 10),
      Nat.digitChar (dt.month / 10 % 10), Nat.digitChar (dt.month % 10),
      Nat.digitChar (dt.day / 10 % 10), Nat.digitChar (dt.day % 10),
      Nat.digitChar (dt.hour / 10 % 10), Nat.digitChar (dt.hour % 10),
      Nat.digitChar (dt.minute / 10 % 10), Nat.digitChar (dt.minute % 10)] := hc
  simp only [List.mem_cons, List.not_mem_nil, or_false] at hc'
  rcases hc' with rfl | rfl | rfl | rfl | rfl | rfl | rfl | rfl | rfl | rfl | rfl | rfl <;>
    exact digitChar_mod10_isDigit _

theorem token_hex_upper_length (entropy : List Nat) :
    (token_hex_upper entropy).length = 2 * entropy.length := by
  show ((entropy.map (fun b => [Nat.digitChar (b / 16), Nat.digitChar (b % 16)])).flatten.map
    Char.toUpper).length = 2 * entropy.length
  rw [List.length_map]
  induction entropy with
  | nil => rfl
  | cons b bs ih =>
    rw [List.map_cons, List.flatten_cons, List.length_append, ih, List.length_cons]
    simp
    omega

theorem token_hex_upper_hex (entropy : List Nat) (hb : ∀ b ∈ entropy, b < 256) :
    ∀ c ∈ (token_hex_upper entropy).toList, isUpperHex c = true := by
  have hhex : ∀ m < 16, isUpperHex ((Nat.digitChar m).toUpper) = true := by decide
  intro c hc
  have hc' : c ∈ ((entropy.map
      (fun b => [Nat.digitChar (b / 16), Nat.digitChar (b % 16)])).flatten.map
      Char.toUpper) := hc
  rcases List.mem_map.mp hc' with ⟨c', hc'', rfl⟩
  rcases List.mem_flatten.mp hc'' with ⟨chunk, hchunk, hcin⟩
  rcases List.mem_map.mp hchunk with ⟨b, hbmem, rfl⟩
  have hb' := hb b hbmem
  simp only [List.mem_cons, List.not_mem_nil, or_false] at hcin
  rcases hcin with rfl | rfl
  · exact hhex _ (by omega)
  · exact hhex _ (Nat.mod_lt b (by omega))

/-- C8: `generate_license_key` formats
`MK-30D-<YYYYMMDDHHmm>-<12 uppercase hex chars>`: for every expiry string
the model parses, the timestamp part is the parsed date-time (twelve
digits); for the fixed expiry `"2025-06-15T10:30:00"` the result is
`MK-30D-202506151030-` followed by the random suffix; the suffix is always
12 uppercase hexadecimal characters; and on parse failure the current UTC
time `now` is substituted — the function is total and never raises. -/
theorem generate_license_key_spec :
    (∀ (s : String) (dt now : PyDateTime) (entropy : List Nat),
      fromisoformat s = some dt →
      generate_license_key s now entropy =
        "MK-30D-" ++ strftime_YmdHM dt ++ "-" ++ token_hex_upper entropy) ∧
    (∀ dt : PyDateTime, (strftime_YmdHM dt).length = 12 ∧
      ∀ c ∈ (strftime_YmdHM dt).toList, c.isDigit = true) ∧
    (∀ (now : PyDateTime) (entropy : List Nat),
      generate_license_key "2025-06-15T10:30:00" now entropy =
        "MK-30D-202506151030-" ++ token_hex_upper entropy) ∧
    (∀ entropy : List Nat, entropy.length = 6 → (∀ b ∈ entropy, b < 256) →
      (token_hex_upper entropy).length = 12 ∧
      ∀ c ∈ (token_hex_upper entropy).toList, isUpperHex c = true) ∧
    (∀ (s : String) (now : PyDateTime) (entropy : List Nat),
      fromisoformat s = none →
      generate_license_key s now entropy =
        "MK-30D-" ++ strftime_YmdHM now ++ "-" ++ token_hex_upper entropy) := by
  refine ⟨?_, ?_, ?_, ?_, ?_⟩
  · intro s dt now entropy h
    unfold generate_license_key
    rw [h]
    rfl
  · intro dt
    exact ⟨strftime_YmdHM_length dt, strftime_YmdHM_digits dt⟩
  · intro now entropy
    have hp : fromisoformat "2025-06-15T10:30:00" = some ⟨2025, 6, 15, 10, 30, 0⟩ := by
      decide
    unfold generate_license_key
    rw [hp]
    show "MK-30D-" ++ strftime_YmdHM ⟨2025, 6, 15, 10, 30, 0⟩ ++ "-" ++
        token_hex_upper entropy =
      "MK-30D-202506151030-" ++ token_hex_upper entropy
    exact congrArg (fun z => z ++ token_hex_upper entropy) (by decide)
  · intro entropy hlen hb
    refine ⟨?_, token_hex_upper_hex entropy hb⟩
    rw [token_hex_upper_length, hlen]
  · intro s now entropy h
    unfold generate_license_key
    rw [h]
    rfl

/-- Witness for C8: concrete instances of every hypothesis-bearing part of
`generate_license_key_spec`, at the fixed expiry, a non-parsing expiry and
the entropy bytes `[0, 1, 2, 3, 4, 5]`. -/
theorem generate_license_key_spec_witness :
    generate_license_key "2025-06-15T10:30:00" ⟨2000, 1, 1, 0, 0, 0⟩ [0, 1, 2, 3, 4, 5] =
      "MK-30D-202506151030-" ++ token_hex_upper [0, 1, 2, 3, 4, 5] ∧
    generate_license_key "2025-06-15T10:30:00" ⟨2000, 1, 1, 0, 0, 0⟩ [0, 1, 2, 3, 4, 5] =
      "MK-30D-" ++ strftime_YmdHM ⟨2025, 6, 15, 10, 30, 0⟩ ++ "-" ++
        token_hex_upper [0, 1, 2, 3, 4, 5] ∧
    ((token_hex_upper [0, 1, 2, 3, 4, 5]).length = 12 ∧
      ∀ c ∈ (token_hex_upper [0, 1, 2, 3, 4, 5]).toList, isUpperHex c = true) ∧
    generate_license_key "never" ⟨2024, 2, 29, 23, 59, 59⟩ [0, 1, 2, 3, 4, 5] =
      "MK-30D-" ++ strftime_YmdHM ⟨2024, 2, 29, 23, 59, 59⟩ ++ "-" ++
        token_hex_upper [0, 1, 2, 3, 4, 5] :=
  ⟨generate_license_key_spec.2.2.1 ⟨2000, 1, 1, 0, 0, 0⟩ [0, 1, 2, 3, 4, 5],
   generate_license_key_spec.1 "2025-06-15T10:30:00" ⟨2025, 6, 15, 10, 30, 0⟩
     ⟨2000, 1, 1, 0, 0, 0⟩ [0, 1, 2, 3, 4, 5] (by decide),
   generate_license_key_spec.2.2.2.1 [0, 1, 2, 3, 4, 5] (by decide) (by decide),
   generate_license_key_spec.2.2.2.2 "never" ⟨2024, 2, 29, 23, 59, 59⟩
     [0, 1, 2, 3, 4, 5] (by decide)⟩

/-- C9: every authentication failure is rejected with a 4xx client error
and leaves all state untouched — a wrong panel password at `POST /login`
returns 401 with the active-session set unchanged and no store write, and
a missing or mismatched repair token at `GET /repair` (including an
unconfigured `REPAIR_TOKEN`) returns 403 without writing the store. -/
theorem auth_failure_no_state_change :
    (∀ (password painel_password tok : String) (sessions : List String),
      password ≠ painel_password →
      do_login password painel_password sessions tok =
        ⟨401, sessions, false⟩ ∧
      400 ≤ (do_login password painel_password sessions tok).status ∧
      (do_login password painel_password sessions tok).status < 500) ∧
    (∀ token x_repair_token repair_token : String,
      repair_token = "" ∨ (if token == "" then x_repair_token else token) ≠ repair_token →
      repair token x_repair_token repair_token = ⟨403, false⟩ ∧
      400 ≤ (repair token x_repair_token repair_token).status ∧
      (repair token x_repair_token repair_token).status < 500) := by
  constructor
  · intro password painel_password tok sessions hne
    have h : do_login password painel_password sessions tok = ⟨401, sessions, false⟩ := by
      unfold do_login
      rw [if_neg (by simpa using hne)]
    refine ⟨h, ?_, ?_⟩
    · rw [h]; show (400 : Nat) ≤ 401; decide
    · rw [h]; show (401 : Nat) < 500; decide
  · intro token x_repair_token repair_token hcase
    have h : repair token x_repair_token repair_token = ⟨403, false⟩ := by
      unfold repair
      by_cases hrt : repair_token = ""
      · rw [if_pos (by simp [hrt])]
      · rw [if_neg (by simp [hrt])]
        rcases hcase with hcase | hcase
        · exact absurd hcase hrt
        · rw [if_pos (by simpa [bne_iff_ne] using hcase)]
    refine ⟨h, ?_, ?_⟩
    · rw [h]; show (400 : Nat) ≤ 403; decide
    · rw [h]; show (403 : Nat) < 500; decide

/-- Witness for C9: a wrong password against panel password `"right"` with
one active session, and a wrong repair token against `REPAIR_TOKEN`
`"secret"`. -/
theorem auth_failure_no_state_change_witness :
    (do_login "wrong" "right" ["tok0"] "fresh" = ⟨401, ["tok0"], false⟩ ∧
      400 ≤ (do_login "wrong" "right" ["tok0"] "fresh").status ∧
      (do_login "wrong" "right" ["tok0"] "fresh").status < 500) ∧
    (repair "bad" "" "secret" = ⟨403, false⟩ ∧
      400 ≤ (repair "bad" "" "secret").status ∧
      (repair "bad" "" "secret").status < 500) :=
  ⟨auth_failure_no_state_change.1 "wrong" "right" "fresh" ["tok0"] (by decide),
   auth_failure_no_state_change.2 "bad" "" "secret" (Or.inr (by decide))⟩
